/-
Verification of the ingestion/aggregation pipeline and pairs-analytics
engine (analytics.py, database.py, ingestion.py, services.py) against its
natural-language specification, via a shallow embedding in Lean 4.

Machine floats are modelled by ℚ where the computation is rational
(prices, quantities, OLS slope) and by ℝ where a square root occurs
(standard deviation, Pearson correlation); NaN results of float
arithmetic are modelled by `Option` `none` where a claim depends on them.
Tick timestamps are modelled as the strings the code actually stores and
compares (Python `isoformat` output against sqlite `datetime` output).
-/
import Mathlib

namespace Gemscap

/-! ## TickBuffer (ingestion.py `_tick_queue` / `_on_message`)

`_tick_queue = queue.Queue(maxsize=10_000)`.  `_on_message` does
`put_nowait(tick)`; on `queue.Full` it does `get_nowait()` (evicting the
oldest item) and then `put_nowait(tick)` again; on `queue.Empty` in that
recovery path it drops the new tick.  With a single producer and no
concurrent consumer this is the following pure function on the queue
contents (head = oldest). -/

/-- One `_on_message` enqueue against a queue of capacity `cap`:
append if below capacity, otherwise evict the oldest and append;
if the full queue is somehow empty (impossible for `cap > 0`),
the new tick is dropped. Never blocks, never raises. -/
def offer (cap : Nat) (q : List α) (t : α) : List α :=
  if q.length < cap then q ++ [t]
  else if q.isEmpty then q
  else q.tail ++ [t]

/-- Feeding a whole list of ticks through `offer`, oldest first,
starting from an empty buffer. -/
def feed (cap : Nat) (ts : List α) : List α :=
  ts.foldl (offer cap) []

theorem offer_of_lt (cap : Nat) (q : List α) (t : α) (h : q.length < cap) :
    offer cap q t = q ++ [t] := by
  simp [offer, h]

theorem offer_of_full (cap : Nat) (q : List α) (t : α) (h : ¬ q.length < cap)
    (hne : q ≠ []) : offer cap q t = q.tail ++ [t] := by
  simp [offer, h, List.isEmpty_iff, hne]

/-- The buffer contents after feeding `ts` from empty is always the
last `min |ts| cap` elements of `ts`, i.e. `ts.drop (|ts| - cap)`. -/
theorem feed_eq_drop (cap : Nat) (ts : List α) :
    feed cap ts = ts.drop (ts.length - cap) := by
  induction ts using List.reverseRecOn with
  | nil => simp [feed]
  | append_singleton ts t ih =>
    have hstep : feed cap (ts ++ [t]) = offer cap (feed cap ts) t := by
      simp [feed]
    rw [hstep, ih]
    by_cases hlt : ts.length < cap
    · have hdrop0 : ts.length - cap = 0 := Nat.sub_eq_zero_of_le (Nat.le_of_lt hlt)
      have hdrop0' : (ts ++ [t]).length - cap = 0 := by
        simp only [List.length_append, List.length_singleton]
        omega
      rw [hdrop0, hdrop0', List.drop_zero, List.drop_zero]
      exact offer_of_lt cap ts t hlt
    · have hlen : (ts.drop (ts.length - cap)).length = cap := by
        rw [List.length_drop]; omega
      by_cases hcap : cap = 0
      · subst hcap
        have hnil : ts.drop (ts.length - 0) = [] := by
          simp [List.drop_length]
        rw [hnil]
        simp [offer, List.drop_of_length_le, List.length_append]
      · have hne : ts.drop (ts.length - cap) ≠ [] := by
          intro hcontra
          rw [hcontra] at hlen
          simp at hlen
          exact hcap hlen.symm
        rw [offer_of_full cap _ t (by omega) hne]
        rw [← List.drop_one, List.drop_drop]
        rw [← List.drop_append_of_le_length (by omega)]
        congr 1
        simp only [List.length_append, List.length_singleton]
        omega

/-! ## StreamConnector backoff (ingestion.py `_start_socket`)

```
backoff = 1
while not stop_event.is_set():
    try:
        ws = websocket.WebSocketApp(...)
        ws.run_forever(...)
        backoff = min(backoff * 2, 30)
    except Exception:
        backoff = min(backoff * 2, 30)
    time.sleep(backoff)
```

Whether the attempt ends in a clean close or an exception, `backoff` is
doubled (capped at 30) and only then slept on: the sleep after the n-th
completed attempt (n = 0, 1, 2, ...) is `waitSeq n` below. -/

/-- Value of `backoff` after `n` updates, starting from the initial 1. -/
def backoffVal : Nat → Nat
  | 0 => 1
  | n + 1 => min (backoffVal n * 2) 30

/-- The wait slept between attempt `n` and attempt `n+1` (`n = 0` is the
wait after the very first connection attempt ends): the code doubles
`backoff` *before* sleeping, so this is `backoffVal (n+1)`. -/
def waitSeq (n : Nat) : Nat := backoffVal (n + 1)

theorem backoffVal_le_30 (n : Nat) (h : 0 < n) : backoffVal n ≤ 30 := by
  cases n with
  | zero => omega
  | succ m =>
    show min (backoffVal m * 2) 30 ≤ 30
    exact min_le_right _ _

/-- Closed form: the n-th wait is `min (2^(n+1)) 30`. -/
theorem waitSeq_closed_form (n : Nat) : waitSeq n = min (2 ^ (n + 1)) 30 := by
  induction n with
  | zero => simp [waitSeq, backoffVal]
  | succ m ih =>
    have h : waitSeq (m + 1) = min (waitSeq m * 2) 30 := by
      simp [waitSeq, backoffVal]
    rw [h, ih]
    have hpow : 2 ^ (m + 1 + 1) = 2 ^ (m + 1) * 2 := by ring
    rw [hpow]
    omega

/-! ## Connector registries (ingestion.py `start_stream` / `stop_stream` /
`get_status`)

`_stream_threads` and `_stop_flags` are module-level dicts keyed by
symbol.  Only the key sets matter to the claims; dict keys preserve
insertion order, so each registry is modelled by its ordered key list. -/

/-- The two module-level registries of ingestion.py, by their key lists. -/
structure Registries where
  streamThreads : List String
  stopFlags : List String
  deriving Repr, DecidableEq

/-- The initial module state: both dicts empty. -/
def initRegistries : Registries := ⟨[], []⟩

/-- `start_stream(symbol)`: returns immediately if `symbol in
_stream_threads`; otherwise registers the thread and the stop flag. -/
def start_stream (s : String) (st : Registries) : Registries :=
  if s ∈ st.streamThreads then st
  else ⟨st.streamThreads ++ [s], st.stopFlags ++ [s]⟩

/-- `stop_stream(symbol)`: returns immediately if `symbol not in
_stream_threads`; otherwise sets the flag and pops both entries. -/
def stop_stream (s : String) (st : Registries) : Registries :=
  if s ∉ st.streamThreads then st
  else ⟨st.streamThreads.erase s, st.stopFlags.erase s⟩

/-- `get_status()["active_symbols"] = list(_stream_threads.keys())`. -/
def get_status_active (st : Registries) : List String := st.streamThreads

/-- A call of the connector-registry API. -/
inductive RegOp where
  | start (s : String)
  | stop (s : String)
  deriving Repr, DecidableEq

/-- Run a sequence of `start_stream` / `stop_stream` calls from the
initial module state. -/
def runOps (ops : List RegOp) : Registries :=
  ops.foldl (fun st op => match op with
    | RegOp.start s => start_stream s st
    | RegOp.stop s => stop_stream s st) initRegistries

theorem start_stream_preserves_eq (s : String) (st : Registries)
    (h : st.streamThreads = st.stopFlags) :
    (start_stream s st).streamThreads = (start_stream s st).stopFlags := by
  unfold start_stream
  split
  · exact h
  · simp [h]

theorem stop_stream_preserves_eq (s : String) (st : Registries)
    (h : st.streamThreads = st.stopFlags) :
    (stop_stream s st).streamThreads = (stop_stream s st).stopFlags := by
  unfold stop_stream
  split
  · exact h
  · simp [h]

/-- After any call sequence from the initial state the two registries
hold the same key list. -/
theorem runOps_eq_keys (ops : List RegOp) :
    (runOps ops).streamThreads = (runOps ops).stopFlags := by
  suffices h : ∀ st : Registries, st.streamThreads = st.stopFlags →
      (ops.foldl (fun st op => match op with
        | RegOp.start s => start_stream s st
        | RegOp.stop s => stop_stream s st) st).streamThreads =
      (ops.foldl (fun st op => match op with
        | RegOp.start s => start_stream s st
        | RegOp.stop s => stop_stream s st) st).stopFlags by
    exact h initRegistries rfl
  induction ops with
  | nil => intro st h; simpa using h
  | cons op rest ih =>
    intro st h
    cases op with
    | start s => exact ih _ (start_stream_preserves_eq s st h)
    | stop s => exact ih _ (stop_stream_preserves_eq s st h)

/-! ## Database rows (database.py schema)

Ticks store `time` as TEXT: `_on_message` writes
`datetime.fromtimestamp(data["T"]/1000, tz=timezone.utc).isoformat()`,
i.e. `YYYY-MM-DDTHH:MM:SS+00:00` for whole-second instants.  Bars store
`time` as TEXT too (the pandas bucket isoformat).  Prices/quantities are
float64, modelled by ℚ. -/

/-- A row of the `ticks` table. -/
structure Tick where
  time : String
  symbol : String
  price : ℚ
  qty : ℚ
  deriving Repr, DecidableEq

/-- A row of a `bars_*` table (`open` is a Lean keyword, hence `open_`). -/
structure Bar where
  time : String
  symbol : String
  open_ : ℚ
  high : ℚ
  low : ℚ
  close : ℚ
  volume : ℚ
  deriving Repr, DecidableEq

/-- A wall-clock UTC instant, second resolution. -/
structure UtcTime where
  year : Nat
  month : Nat
  day : Nat
  hour : Nat
  minute : Nat
  second : Nat
  deriving Repr, DecidableEq

/-- Zero-padded two-digit rendering of a calendar/clock field. -/
def pad2 (n : Nat) : String :=
  if n < 10 then "0" ++ toString n else toString n

/-- `YYYY-MM-DD` part shared by both text formats. -/
def dateStr (t : UtcTime) : String :=
  toString t.year ++ "-" ++ pad2 t.month ++ "-" ++ pad2 t.day

/-- `HH:MM:SS` part shared by both text formats. -/
def clockStr (t : UtcTime) : String :=
  pad2 t.hour ++ ":" ++ pad2 t.minute ++ ":" ++ pad2 t.second

/-- What Python's `datetime.isoformat()` produces for an aware UTC
instant with zero microseconds: `YYYY-MM-DDTHH:MM:SS+00:00`: the
format `_on_message` stores into the `ticks.time` column. -/
def pyIso (t : UtcTime) : String :=
  dateStr t ++ "T" ++ clockStr t ++ "+00:00"

/-- What sqlite's `datetime('now', '-H hours')` produces:
`YYYY-MM-DD HH:MM:SS` (space separator, no offset suffix). -/
def sqliteStr (t : UtcTime) : String :=
  dateStr t ++ " " ++ clockStr t

/-- Strictly monotone encoding of calendar order for valid UTC instants
(month ≤ 12 < 40 per year slot, day ≤ 31 < 40 per month slot); used to
state which instant is chronologically older. -/
def chronoVal (t : UtcTime) : Nat :=
  ((((t.year * 40 + t.month) * 40 + t.day) * 24 + t.hour) * 60 + t.minute) * 60
    + t.second

/-- Code-point lexicographic order on character lists: sqlite's BINARY
collation, under which the TEXT comparison `time < cutoff` runs. -/
def bytesLt : List Char → List Char → Bool
  | [], [] => false
  | [], _ :: _ => true
  | _ :: _, [] => false
  | a :: as, b :: bs => if a < b then true else if b < a then false else bytesLt as bs

/-- TEXT `<` of sqlite on two strings. -/
def textLt (s t : String) : Bool := bytesLt s.data t.data

/-- The persistent store: the `ticks` table plus the three bar tables. -/
structure DBState where
  ticks : List Tick
  bars_1s : List Bar
  bars_1m : List Bar
  bars_5m : List Bar
  deriving Repr, DecidableEq

/-- `prune_ticks_older_than(hours)` runs
`DELETE FROM ticks WHERE time < datetime('now', '-H hours')`: TEXT rows
survive exactly when NOT lexicographically below the cutoff string
(sqlite BINARY collation = code-point order).  No other table is
touched. -/
def prune_ticks_older_than (cutoff : String) (db : DBState) : DBState :=
  { db with ticks := db.ticks.filter (fun t => !(textLt t.time cutoff)) }

/-- Key comparison of the `UNIQUE(symbol, time)` constraint on each
bars table. -/
def barKeyEq (r b : Bar) : Bool :=
  r.symbol == b.symbol && r.time == b.time

/-- Effect of `ON CONFLICT(symbol, time) DO UPDATE SET open=excluded.open,
...` on the conflicting row. -/
def replaceWith (b r : Bar) : Bar :=
  if barKeyEq r b then
    { r with open_ := b.open_, high := b.high, low := b.low,
             close := b.close, volume := b.volume }
  else r

/-- One row of the `executemany` in `insert_or_replace_bars`: plain
insert when no row holds the key, conflict-update otherwise. -/
def upsertBar (table : List Bar) (b : Bar) : List Bar :=
  if table.any (fun r => barKeyEq r b) then table.map (replaceWith b)
  else table ++ [b]

/-- `insert_or_replace_bars(table_name, bars)`: the `executemany` runs
the upsert statement once per bar, in order. -/
def insert_or_replace_bars (table : List Bar) (bars : List Bar) : List Bar :=
  bars.foldl upsertBar table

theorem barKeyEq_self (b : Bar) : barKeyEq b b = true := by
  simp [barKeyEq]

theorem barKeyEq_congr (b1 b2 : Bar) (hsym : b1.symbol = b2.symbol)
    (htime : b1.time = b2.time) (r : Bar) :
    barKeyEq r b1 = barKeyEq r b2 := by
  simp [barKeyEq, hsym, htime]

theorem replaceWith_eq (b r : Bar) (h : barKeyEq r b = true) :
    replaceWith b r = b := by
  unfold replaceWith
  rw [if_pos h]
  unfold barKeyEq at h
  rw [Bool.and_eq_true, beq_iff_eq, beq_iff_eq] at h
  cases b; cases r; simp_all

theorem filter_map_replaceWith (b : Bar) (l : List Bar) :
    (l.map (replaceWith b)).filter (fun r => barKeyEq r b) =
      (l.filter (fun r => barKeyEq r b)).map (fun _ => b) := by
  induction l with
  | nil => simp
  | cons r l ih =>
    by_cases h : barKeyEq r b = true
    · rw [List.map_cons, List.filter_cons, List.filter_cons]
      rw [replaceWith_eq b r h, h]
      simp only [barKeyEq_self, if_pos, ite_true, List.map_cons]
      rw [ih]
    · have hfalse : barKeyEq r b = false := by
        revert h; cases barKeyEq r b <;> simp
      rw [List.map_cons, List.filter_cons, List.filter_cons]
      have hrep : replaceWith b r = r := by
        unfold replaceWith; rw [hfalse]; simp
      rw [hrep, hfalse]
      simpa using ih

/-- After one upsert of `b` into a table holding at most one row with
`b`'s key, the rows with that key are exactly `[b]`. -/
theorem filter_upsertBar (table : List Bar) (b : Bar)
    (h : (table.filter (fun r => barKeyEq r b)).length ≤ 1) :
    (upsertBar table b).filter (fun r => barKeyEq r b) = [b] := by
  unfold upsertBar
  by_cases hany : table.any (fun r => barKeyEq r b) = true
  · rw [if_pos hany, filter_map_replaceWith]
    rcases List.any_eq_true.mp hany with ⟨r, hr, hpr⟩
    have hmem : r ∈ table.filter (fun r => barKeyEq r b) :=
      List.mem_filter.mpr ⟨hr, hpr⟩
    have hpos : 0 < (table.filter (fun r => barKeyEq r b)).length :=
      List.length_pos.mpr (List.ne_nil_of_mem hmem)
    have hlen : (table.filter (fun r => barKeyEq r b)).length = 1 := by omega
    rcases List.length_eq_one.mp hlen with ⟨a, ha⟩
    rw [ha]; simp
  · rw [if_neg hany]
    have hnil : table.filter (fun r => barKeyEq r b) = [] := by
      rw [List.filter_eq_nil_iff]
      intro a ha
      intro hcontra
      exact hany (List.any_eq_true.mpr ⟨a, ha, hcontra⟩)
    rw [List.filter_append, hnil]
    simp [barKeyEq_self]

/-! ## Aggregation (ingestion.py `_aggregate_and_store_bars`)

The batch DataFrame is indexed by tick time, grouped by symbol and
resampled; each non-empty bucket is aggregated with
`open=("price","first"), high=("price","max"), low=("price","min"),
close=("price","last"), volume=("qty","sum")`.  Resampling orders the
bucket by its DatetimeIndex, so `first`/`last` are by time order. -/

/-- A tick of a flush batch as the aggregation sees it: its time index
(epoch seconds) and float price/qty. -/
structure RawTick where
  time : Nat
  price : ℚ
  qty : ℚ
  deriving Repr, DecidableEq

/-- The aggregation of one non-empty resample bucket `t :: ts` (listed
in time order) into a bar row for the given bucket label and symbol. -/
def aggBucket (label symbol : String) (t : RawTick) (ts : List RawTick) : Bar :=
  { time := label
    symbol := symbol
    open_ := t.price
    high := ts.foldl (fun a u => max a u.price) t.price
    low := ts.foldl (fun a u => min a u.price) t.price
    close := (ts.getLastD t).price
    volume := ts.foldl (fun a u => a + u.qty) t.qty }

theorem foldl_max_init (f : RawTick → ℚ) :
    ∀ (l : List RawTick) (init : ℚ),
      init ≤ l.foldl (fun a u => max a (f u)) init := by
  intro l
  induction l with
  | nil => intro init; simp
  | cons u l ih =>
    intro init
    calc init ≤ max init (f u) := le_max_left _ _
    _ ≤ l.foldl (fun a u => max a (f u)) (max init (f u)) := ih _

theorem foldl_max_mem (f : RawTick → ℚ) :
    ∀ (l : List RawTick) (init : ℚ) (u : RawTick), u ∈ l →
      f u ≤ l.foldl (fun a v => max a (f v)) init := by
  intro l
  induction l with
  | nil => intro init u hu; simp at hu
  | cons v l ih =>
    intro init u hu
    rcases List.mem_cons.mp hu with h | h
    · subst h
      calc f u ≤ max init (f u) := le_max_right _ _
      _ ≤ l.foldl (fun a v => max a (f v)) (max init (f u)) := foldl_max_init f l _
    · exact ih _ u h

theorem foldl_min_init (f : RawTick → ℚ) :
    ∀ (l : List RawTick) (init : ℚ),
      l.foldl (fun a u => min a (f u)) init ≤ init := by
  intro l
  induction l with
  | nil => intro init; simp
  | cons u l ih =>
    intro init
    calc l.foldl (fun a u => min a (f u)) (min init (f u)) ≤ min init (f u) := ih _
    _ ≤ init := min_le_left _ _

theorem foldl_min_mem (f : RawTick → ℚ) :
    ∀ (l : List RawTick) (init : ℚ) (u : RawTick), u ∈ l →
      l.foldl (fun a v => min a (f v)) init ≤ f u := by
  intro l
  induction l with
  | nil => intro init u hu; simp at hu
  | cons v l ih =>
    intro init u hu
    rcases List.mem_cons.mp hu with h | h
    · subst h
      calc l.foldl (fun a v => min a (f v)) (min init (f u)) ≤ min init (f u) :=
        foldl_min_init f l _
      _ ≤ f u := min_le_right _ _
    · exact ih _ u h

theorem foldl_add_eq (f : RawTick → ℚ) :
    ∀ (l : List RawTick) (init : ℚ),
      l.foldl (fun a u => a + f u) init = init + (l.map f).sum := by
  intro l
  induction l with
  | nil => intro init; simp
  | cons u l ih =>
    intro init
    rw [List.foldl_cons, ih, List.map_cons, List.sum_cons]
    ring

theorem getLastD_mem (t : RawTick) : ∀ (ts : List RawTick), ts.getLastD t ∈ t :: ts := by
  intro ts
  induction ts generalizing t with
  | nil => simp
  | cons v ts ih =>
    rw [List.getLastD_cons]
    rcases List.mem_cons.mp (ih v) with h | h
    · rw [h]; simp
    · exact List.mem_cons_of_mem _ (List.mem_cons_of_mem _ h)

theorem chain_head_le (t : RawTick) (ts : List RawTick)
    (h : List.Chain' (fun a b : RawTick => a.time ≤ b.time) (t :: ts)) :
    ∀ u ∈ t :: ts, t.time ≤ u.time := by
  induction ts generalizing t with
  | nil => intro u hu; rcases List.mem_cons.mp hu with h' | h' <;> simp_all
  | cons v ts ih =>
    intro u hu
    have hrel : t.time ≤ v.time := (List.chain'_cons.mp h).1
    have htail : List.Chain' (fun a b : RawTick => a.time ≤ b.time) (v :: ts) :=
      (List.chain'_cons.mp h).2
    rcases List.mem_cons.mp hu with h' | h'
    · rw [h']
    · exact le_trans hrel (ih v htail u h')

theorem chain_le_last (t : RawTick) (ts : List RawTick)
    (h : List.Chain' (fun a b : RawTick => a.time ≤ b.time) (t :: ts)) :
    ∀ u ∈ t :: ts, u.time ≤ (ts.getLastD t).time := by
  induction ts generalizing t with
  | nil => intro u hu; rcases List.mem_cons.mp hu with h' | h' <;> simp_all
  | cons v ts ih =>
    intro u hu
    rw [List.getLastD_cons]
    have hrel : t.time ≤ v.time := (List.chain'_cons.mp h).1
    have htail : List.Chain' (fun a b : RawTick => a.time ≤ b.time) (v :: ts) :=
      (List.chain'_cons.mp h).2
    rcases List.mem_cons.mp hu with h' | h'
    · subst h'
      exact le_trans hrel (ih v htail v (List.mem_cons_self _ _))
    · exact ih v htail u h'

/-! ## AggregationFlusher loop (ingestion.py `_flush_loop`)

```
while True:
    batch = []
    ... drain up to batch_size with deadline flush_interval ...
    if batch:
        insert_ticks_bulk(batch)
        _aggregate_and_store_bars(batch)
    if retention_hours and time.time() - last_prune > 300:
        prune_ticks_older_than(retention_hours)
        last_prune = time.time()
```

No statement of the body is wrapped in try/except: an exception raised
by a persistence call propagates out of `_flush_loop` and the flush
thread dies. -/

/-- Which persistence call of a cycle raised. -/
inductive PersistenceError where
  | insertTicks
  | storeBars
  | prune
  deriving Repr, DecidableEq

/-- Environment of one cycle: whether the drained batch is non-empty,
whether the prune timer fired, and whether each persistence call would
succeed if reached this cycle. -/
structure CycleEnv where
  batchNonempty : Bool
  pruneDue : Bool
  insertOk : Bool
  barsOk : Bool
  pruneOk : Bool
  deriving Repr, DecidableEq

/-- One iteration of the `while True` body after the drain.  The first
failing persistence call raises; there is no handler, so the error is
the iteration's result. -/
def flushCycle (env : CycleEnv) : Except PersistenceError Unit := do
  if env.batchNonempty then
    if !env.insertOk then throw PersistenceError.insertTicks
    if !env.barsOk then throw PersistenceError.storeBars
  if env.pruneDue then
    if !env.pruneOk then throw PersistenceError.prune

/-- Running `fuel` iterations of the loop under the per-cycle
environments `envs`.  An uncaught exception of cycle `i` propagates out
of `_flush_loop` (terminating the daemon thread), so no later cycle
runs: the result is `error (i, e)`.  Otherwise all `fuel` cycles
complete. -/
def flushLoop (envs : Nat → CycleEnv) : Nat → Except (Nat × PersistenceError) Nat
  | 0 => Except.ok 0
  | n + 1 =>
    match flushLoop envs n with
    | Except.error e => Except.error e
    | Except.ok _ =>
      match flushCycle (envs n) with
      | Except.error e => Except.error (n, e)
      | Except.ok _ => Except.ok (n + 1)

/-! ## PairAnalytics (analytics.py)

Prices are float64; the OLS slope is a rational function of its inputs
and is modelled over ℚ, while `std` and Pearson correlation take a
square root and are modelled over ℝ.  A float division whose result is
NaN is modelled by `Option` `none` where a claim depends on it. -/

/-- `arr[-n:]` on a numpy array, as used by `hedge_ratio`'s trimming. -/
def takeLast (n : Nat) (l : List ℚ) : List ℚ := l.drop (l.length - n)

/-- `OLS(y, add_constant(x)).fit().params[1]`: the slope of the least
squares fit of `y` on `x` with intercept, in closed form
`(n·Σxy − Σx·Σy) / (n·Σx² − (Σx)²)`.  ℚ's total division returns 0 on
the singular design (constant `x`), a case no claim relies on. -/
def fitSlope (y x : List ℚ) : ℚ :=
  let n : ℚ := x.length
  let sx := x.sum
  let sy := y.sum
  let sxy := (List.zipWith (· * ·) x y).sum
  let sxx := (x.map (fun a => a * a)).sum
  (n * sxy - sx * sy) / (n * sxx - sx * sx)

/-- `hedge_ratio(y, x)` from analytics.py: both inputs are trimmed to
`min_len = min(len(y), len(x))` keeping the trailing elements
(`y_arr[-min_len:]`, `x_arr[-min_len:]`); `ValueError` when
`min_len == 0`; otherwise the OLS slope of the trimmed series. -/
def hedge_ratio (y x : List ℚ) : Except String ℚ :=
  if min y.length x.length = 0 then
    Except.error "Not enough data to compute hedge ratio"
  else
    Except.ok (fitSlope (takeLast (min y.length x.length) y)
      (takeLast (min y.length x.length) x))

theorem takeLast_length_le (n : Nat) (l : List ℚ) : (takeLast n l).length ≤ n := by
  unfold takeLast
  rw [List.length_drop]
  omega

theorem takeLast_of_length_le (n : Nat) (l : List ℚ) (h : l.length ≤ n) :
    takeLast n l = l := by
  unfold takeLast
  have : l.length - n = 0 := Nat.sub_eq_zero_of_le h
  rw [this, List.drop_zero]

theorem takeLast_length (n : Nat) (l : List ℚ) (h : n ≤ l.length) :
    (takeLast n l).length = n := by
  unfold takeLast
  rw [List.length_drop]
  omega

section RealAnalytics

/-- `Series.mean()`. -/
noncomputable def meanR (l : List ℝ) : ℝ := l.sum / l.length

/-- `Series.std()`: pandas sample standard deviation (ddof = 1),
`sqrt(Σ(a − mean)² / (n − 1))`. -/
noncomputable def stdR (l : List ℝ) : ℝ :=
  Real.sqrt ((l.map (fun a => (a - meanR l) ^ 2)).sum / ((l.length : ℝ) - 1))

/-- `zscore(series) = (series - series.mean()) / series.std()`.  The
function body raises nothing; when `std` is 0, every float entry is
NaN (0/0) — modelled as `none`.  When `std ≠ 0` every entry is a real
value. -/
noncomputable def zscore (l : List ℝ) : List (Option ℝ) :=
  l.map (fun a => if stdR l = 0 then none else some ((a - meanR l) / stdR l))

/-- Sample covariance (ddof = 1) of two aligned windows. -/
noncomputable def covP (x y : List ℝ) : ℝ :=
  (List.zipWith (fun a b => (a - meanR x) * (b - meanR y)) x y).sum
    / ((x.length : ℝ) - 1)

/-- Sample variance of a window. -/
noncomputable def varP (x : List ℝ) : ℝ := covP x x

/-- Pearson correlation of two aligned windows as pandas computes it:
`cov / (std·std)`; when either variance is 0 the float result is NaN
(0/0), modelled as `none`. -/
noncomputable def corrOpt (x y : List ℝ) : Option ℝ :=
  if varP x = 0 ∨ varP y = 0 then none
  else some (covP x y / (Real.sqrt (varP x) * Real.sqrt (varP y)))

/-- The trailing window of length `w` ending at index `i`. -/
def windowAt (s : List ℝ) (i w : Nat) : List ℝ := (s.take (i + 1)).drop (i + 1 - w)

/-- `rolling_corr(s1, s2, window) = s1.rolling(window).corr(s2)`:
`min_periods` defaults to the window length, so positions `i` with
`i + 1 < window` carry no value; at other positions the Pearson
correlation of the two trailing windows. -/
noncomputable def rolling_corr (s1 s2 : List ℝ) (w : Nat) : List (Option ℝ) :=
  (List.range s1.length).map (fun i =>
    if i + 1 < w then none else corrOpt (windowAt s1 i w) (windowAt s2 i w))

theorem covP_self_eq_varP (x : List ℝ) : covP x x = varP x := rfl

theorem zipWith_self {α β : Type _} (f : α → α → β) :
    ∀ l : List α, List.zipWith f l l = l.map (fun a => f a a)
  | [] => rfl
  | a :: l => by
    rw [List.zipWith_cons_cons, List.map_cons, zipWith_self f l]

theorem varP_nonneg (x : List ℝ) : 0 ≤ varP x := by
  unfold varP covP
  rw [zipWith_self]
  have hnum : 0 ≤ (x.map (fun a => (a - meanR x) * (a - meanR x))).sum := by
    apply List.sum_nonneg
    intro a ha
    rcases List.mem_map.mp ha with ⟨b, _, rfl⟩
    exact mul_self_nonneg _
  rcases lt_trichotomy ((x.length : ℝ) - 1) 0 with hneg | hzero | hpos
  · have hlt : (x.length : ℝ) < 1 := by linarith
    have hlen : x.length = 0 := by
      have : x.length < 1 := by exact_mod_cast hlt
      omega
    have hx : x = [] := List.length_eq_zero.mp hlen
    subst hx
    simp
  · rw [hzero, div_zero]
  · exact div_nonneg hnum hpos.le

end RealAnalytics

/-! ## The claims -/

/-- Claim C4: a tick buffer of capacity `N` that receives `N + k` ticks
in order with `k > 0` and no concurrent consumption never blocks or
raises to the producer (`offer` is a total function with no failure
outcome), exactly the `k` earliest ticks are absent afterwards, and the
`N` items remaining are the last `N` input ticks in their original
relative order. -/
theorem claim_C4_drop_oldest {α : Type} (N k : Nat) (ts : List α)
    (hk : 0 < k) (hlen : ts.length = N + k) :
    feed N ts = ts.drop k ∧ (feed N ts).length = N := by
  have h := feed_eq_drop N ts
  have hdk : ts.length - N = k := by omega
  rw [hdk] at h
  refine ⟨h, ?_⟩
  rw [h, List.length_drop, hlen]
  omega

/-- Claim C4 witness: capacity 2 fed three ticks keeps the last two, in
order. -/
theorem claim_C4_drop_oldest_witness :
    feed 2 [(10 : Nat), 20, 30] = [20, 30]
    ∧ (feed 2 [(10 : Nat), 20, 30]).length = 2 := by
  have h := claim_C4_drop_oldest 2 1 [(10 : Nat), 20, 30] (by decide) (by decide)
  exact ⟨h.1.trans (by decide), h.2⟩

/-- Claim C8 counterexample: the wait before the first reconnection
attempt is 2 time-units, not 1 — `_start_socket` doubles `backoff`
(initial value 1) before it first sleeps. -/
theorem claim_C8_first_wait_is_two : waitSeq 0 = 2 ∧ waitSeq 0 ≠ 1 := by decide

/-- Claim C8 (amended): while no stop is requested, reconnection waits
follow exponential backoff with the doubling applied before each sleep:
the n-th wait is `min (2^(n+1)) 30` — i.e. 2, 4, 8, 16, 30, 30, ... —
each wait is capped at 30 time-units, each wait doubles the previous
one up to the cap, and a wait is defined for every retry index (no
bound on the number of retries). -/
theorem claim_C8_backoff_amended (n : Nat) :
    waitSeq n = min (2 ^ (n + 1)) 30 ∧ waitSeq n ≤ 30
    ∧ waitSeq (n + 1) = min (waitSeq n * 2) 30 :=
  ⟨waitSeq_closed_form n, backoffVal_le_30 (n + 1) (Nat.succ_pos n), rfl⟩

/-- Claim C10: after any sequence of `start_stream` / `stop_stream`
calls from the initial module state, the symbols holding a
stream-thread entry are exactly the symbols holding a stop-flag entry,
`get_status` reports exactly that set as active, starting an
already-active symbol is a no-op on both registries, and stopping a
non-active symbol is a no-op on both registries (all four operations
are total: none raises). -/
theorem claim_C10_registries (ops : List RegOp) :
    (runOps ops).streamThreads = (runOps ops).stopFlags
    ∧ get_status_active (runOps ops) = (runOps ops).streamThreads
    ∧ (∀ s, s ∈ (runOps ops).streamThreads → start_stream s (runOps ops) = runOps ops)
    ∧ (∀ s, s ∉ (runOps ops).streamThreads → stop_stream s (runOps ops) = runOps ops) := by
  refine ⟨runOps_eq_keys ops, rfl, ?_, ?_⟩
  · intro s hs
    unfold start_stream
    rw [if_pos hs]
  · intro s hs
    unfold stop_stream
    rw [if_pos hs]

/-- Claim C10 witness: starting a symbol twice and stopping an unknown
symbol from the initial state keeps both registries equal, and the
stop of the unknown symbol is a no-op. -/
theorem claim_C10_registries_witness :
    (runOps [RegOp.start "btcusdt", RegOp.start "btcusdt",
        RegOp.stop "ethusdt"]).streamThreads
      = (runOps [RegOp.start "btcusdt", RegOp.start "btcusdt",
          RegOp.stop "ethusdt"]).stopFlags
    ∧ stop_stream "ethusdt" (runOps [RegOp.start "btcusdt", RegOp.start "btcusdt",
        RegOp.stop "ethusdt"])
      = runOps [RegOp.start "btcusdt", RegOp.start "btcusdt", RegOp.stop "ethusdt"] := by
  have h := claim_C10_registries [RegOp.start "btcusdt", RegOp.start "btcusdt",
    RegOp.stop "ethusdt"]
  exact ⟨h.1, h.2.2.2 "ethusdt" (by decide)⟩

/-- Claim C1 (code-bug evidence): `_flush_loop` wraps no persistence
call in try/except, so a failure is not absorbed.  With fuel for two
cycles and `insert_ticks_bulk` raising in cycle 0, the loop's result is
the propagated error of cycle 0 and cycle 1 never runs — the flush
worker terminates because of a persistence failure.  With every call
succeeding, the same loop completes both cycles. -/
theorem claim_C1_flush_loop_dies :
    flushLoop (fun i => if i = 0 then ⟨true, false, false, true, true⟩
        else ⟨true, false, true, true, true⟩) 2
      = Except.error (0, PersistenceError.insertTicks)
    ∧ flushLoop (fun _ => ⟨true, false, true, true, true⟩) 2 = Except.ok 2 :=
  ⟨rfl, rfl⟩

/-- Claim C6: upserting a bar twice with the same `(symbol, time)` key
(the timeframe picks the table) into a table holding at most one row
for that key — the `UNIQUE(symbol, time)` schema invariant — leaves
exactly one stored row for the key, and its OHLCV fields equal the
second write's values: last-writer-wins replacement, not a merge. -/
theorem claim_C6_upsert_last_writer_wins (table : List Bar) (b1 b2 : Bar)
    (hsym : b1.symbol = b2.symbol) (htime : b1.time = b2.time)
    (huniq : (table.filter (fun r => barKeyEq r b2)).length ≤ 1) :
    (insert_or_replace_bars (insert_or_replace_bars table [b1]) [b2]).filter
      (fun r => barKeyEq r b2) = [b2] := by
  have hfold : insert_or_replace_bars (insert_or_replace_bars table [b1]) [b2]
      = upsertBar (upsertBar table b1) b2 := rfl
  rw [hfold]
  have hcongr : (fun r => barKeyEq r b1) = (fun r => barKeyEq r b2) :=
    funext (barKeyEq_congr b1 b2 hsym htime)
  have h1 : (upsertBar table b1).filter (fun r => barKeyEq r b1) = [b1] := by
    apply filter_upsertBar
    rw [hcongr]
    exact huniq
  have h1' : (upsertBar table b1).filter (fun r => barKeyEq r b2) = [b1] := by
    rw [← hcongr]
    exact h1
  apply filter_upsertBar
  rw [h1']
  simp

/-- Claim C6 witness: two writes with the same key and different OHLCV
values into an empty table leave the single row of the second write. -/
theorem claim_C6_upsert_witness :
    (insert_or_replace_bars (insert_or_replace_bars []
        [⟨"2026-10-12T00:00:00+00:00", "btcusdt", 1, 2, 0, 1, 5⟩])
        [⟨"2026-10-12T00:00:00+00:00", "btcusdt", 3, 4, 2, 3, 7⟩]).filter
      (fun r => barKeyEq r ⟨"2026-10-12T00:00:00+00:00", "btcusdt", 3, 4, 2, 3, 7⟩)
      = [⟨"2026-10-12T00:00:00+00:00", "btcusdt", 3, 4, 2, 3, 7⟩] :=
  claim_C6_upsert_last_writer_wins [] _ _ rfl rfl (by simp)

/-- Claim C2 (code-bug evidence): `_on_message` stores tick times as
Python `isoformat` TEXT (`YYYY-MM-DDTHH:MM:SS+00:00`) while
`prune_ticks_older_than` compares them against sqlite's
`datetime('now', '-6 hours')` TEXT (`YYYY-MM-DD HH:MM:SS`).  Because
`'T' > ' '` in code-point order, with now = 2026-10-12 12:00:00Z the
tick from 02:00:00Z — 10 hours old, chronologically 4 hours older than
the 6-hour cutoff (first conjunct) — is not below the cutoff string, so
the prune deletes nothing: the whole store, bars included, is returned
unchanged, while the claim demands that only the 1-hour-old tick
remain. -/
theorem claim_C2_prune_misses_old_tick :
    chronoVal ⟨2026, 10, 12, 2, 0, 0⟩ + 4 * 3600 = chronoVal ⟨2026, 10, 12, 6, 0, 0⟩
    ∧ prune_ticks_older_than (sqliteStr ⟨2026, 10, 12, 6, 0, 0⟩)
        ⟨[⟨pyIso ⟨2026, 10, 12, 2, 0, 0⟩, "btcusdt", 100, 1⟩,
          ⟨pyIso ⟨2026, 10, 12, 11, 0, 0⟩, "btcusdt", 101, 1⟩],
          [⟨"2026-10-12T00:00:00+00:00", "btcusdt", 1, 2, 0, 1, 5⟩], [], []⟩
      = ⟨[⟨pyIso ⟨2026, 10, 12, 2, 0, 0⟩, "btcusdt", 100, 1⟩,
          ⟨pyIso ⟨2026, 10, 12, 11, 0, 0⟩, "btcusdt", 101, 1⟩],
          [⟨"2026-10-12T00:00:00+00:00", "btcusdt", 1, 2, 0, 1, 5⟩], [], []⟩ := by
  constructor
  · decide
  · decide

/-- Claim C7: `hedge_ratio` uses only the trailing `min(len y, len x)`
elements of each series (trimming the front changes nothing), fails
with the `ValueError` condition exactly when the trimmed length is
zero, and otherwise returns the OLS slope of the trimmed series. -/
theorem claim_C7_hedge_ratio_trim (y x : List ℚ) :
    hedge_ratio y x = hedge_ratio (takeLast (min y.length x.length) y)
        (takeLast (min y.length x.length) x)
    ∧ (min y.length x.length = 0 →
        hedge_ratio y x = Except.error "Not enough data to compute hedge ratio")
    ∧ (0 < min y.length x.length →
        hedge_ratio y x = Except.ok (fitSlope (takeLast (min y.length x.length) y)
          (takeLast (min y.length x.length) x))) := by
  by_cases h0 : min y.length x.length = 0
  · have hty : takeLast (min y.length x.length) y = [] := by
      rw [h0]
      unfold takeLast
      rw [Nat.sub_zero, List.drop_length]
    have htx : takeLast (min y.length x.length) x = [] := by
      rw [h0]
      unfold takeLast
      rw [Nat.sub_zero, List.drop_length]
    refine ⟨?_, fun _ => ?_, fun hpos => absurd h0 (Nat.pos_iff_ne_zero.mp hpos)⟩
    · rw [hty, htx]
      simp [hedge_ratio, h0]
    · unfold hedge_ratio
      rw [if_pos h0]
  · have hly : (takeLast (min y.length x.length) y).length = min y.length x.length :=
      takeLast_length _ _ (min_le_left _ _)
    have hlx : (takeLast (min y.length x.length) x).length = min y.length x.length :=
      takeLast_length _ _ (min_le_right _ _)
    have hLHS : hedge_ratio y x = Except.ok (fitSlope (takeLast (min y.length x.length) y)
        (takeLast (min y.length x.length) x)) := by
      unfold hedge_ratio
      rw [if_neg h0]
    have hcy : takeLast (min y.length x.length) (takeLast (min y.length x.length) y)
        = takeLast (min y.length x.length) y :=
      takeLast_of_length_le _ _ (le_of_eq hly)
    have hcx : takeLast (min y.length x.length) (takeLast (min y.length x.length) x)
        = takeLast (min y.length x.length) x :=
      takeLast_of_length_le _ _ (le_of_eq hlx)
    have hRHS : hedge_ratio (takeLast (min y.length x.length) y)
        (takeLast (min y.length x.length) x)
        = Except.ok (fitSlope (takeLast (min y.length x.length) y)
          (takeLast (min y.length x.length) x)) := by
      unfold hedge_ratio
      rw [hly, hlx, min_self, if_neg h0, hcy, hcx]
    exact ⟨hLHS.trans hRHS.symm, fun hz => absurd hz h0, fun _ => hLHS⟩

/-- Claim C7 witness: with lengths 10 and 7 only the last 7 elements of
each series are used, and empty trimmed input fails with the
`ValueError` condition. -/
theorem claim_C7_hedge_ratio_trim_witness :
    hedge_ratio [1, 2, 3, 4, 5, 6, 7, 8, 9, 10] [2, 4, 6, 8, 10, 12, 14]
      = hedge_ratio (takeLast 7 [1, 2, 3, 4, 5, 6, 7, 8, 9, 10])
          (takeLast 7 [2, 4, 6, 8, 10, 12, 14])
    ∧ hedge_ratio ([] : List ℚ) [1]
      = Except.error "Not enough data to compute hedge ratio" := by
  constructor
  · have h := (claim_C7_hedge_ratio_trim [1, 2, 3, 4, 5, 6, 7, 8, 9, 10]
      [2, 4, 6, 8, 10, 12, 14]).1
    simpa using h
  · exact (claim_C7_hedge_ratio_trim [] [1]).2.1 rfl

/-- Claim C5: for a bar aggregated from a non-empty bucket `t :: ts`
of ticks in time order: `low ≤ min(open, close)`,
`max(open, close) ≤ high`, open is the price of the earliest tick
(the head, whose time is minimal in the bucket), close is the price of
the latest (the last, whose time is maximal), volume is the sum of the
bucketed quantities, and hence `volume ≥ 0` for non-negative
quantities. -/
theorem claim_C5_bar_invariants (label sym : String) (t : RawTick) (ts : List RawTick)
    (hchain : List.Chain' (fun a b : RawTick => a.time ≤ b.time) (t :: ts))
    (hqty : ∀ u ∈ t :: ts, 0 ≤ u.qty) :
    (aggBucket label sym t ts).low
        ≤ min (aggBucket label sym t ts).open_ (aggBucket label sym t ts).close
    ∧ max (aggBucket label sym t ts).open_ (aggBucket label sym t ts).close
        ≤ (aggBucket label sym t ts).high
    ∧ (aggBucket label sym t ts).open_ = t.price
    ∧ (∀ u ∈ t :: ts, t.time ≤ u.time)
    ∧ (aggBucket label sym t ts).close = (ts.getLastD t).price
    ∧ (∀ u ∈ t :: ts, u.time ≤ (ts.getLastD t).time)
    ∧ (aggBucket label sym t ts).volume = ((t :: ts).map RawTick.qty).sum
    ∧ 0 ≤ (aggBucket label sym t ts).volume := by
  have hlow : ∀ u ∈ t :: ts, (aggBucket label sym t ts).low ≤ u.price := by
    intro u hu
    rcases List.mem_cons.mp hu with h | h
    · rw [h]
      exact foldl_min_init RawTick.price ts t.price
    · exact foldl_min_mem RawTick.price ts t.price u h
  have hhigh : ∀ u ∈ t :: ts, u.price ≤ (aggBucket label sym t ts).high := by
    intro u hu
    rcases List.mem_cons.mp hu with h | h
    · rw [h]
      exact foldl_max_init RawTick.price ts t.price
    · exact foldl_max_mem RawTick.price ts t.price u h
  have hvol : (aggBucket label sym t ts).volume = ((t :: ts).map RawTick.qty).sum := by
    show ts.foldl (fun a u => a + u.qty) t.qty = ((t :: ts).map RawTick.qty).sum
    rw [foldl_add_eq RawTick.qty ts t.qty, List.map_cons, List.sum_cons]
  refine ⟨?_, ?_, rfl, chain_head_le t ts hchain, rfl, chain_le_last t ts hchain, hvol, ?_⟩
  · exact le_min (hlow t (List.mem_cons_self t ts)) (hlow _ (getLastD_mem t ts))
  · exact max_le (hhigh t (List.mem_cons_self t ts)) (hhigh _ (getLastD_mem t ts))
  · rw [hvol]
    apply List.sum_nonneg
    intro q hq
    rcases List.mem_map.mp hq with ⟨u, hu, rfl⟩
    exact hqty u hu

/-- Claim C5 witness: the bucket of three ticks (prices 100, 101, 99;
quantities 1, 2, 3) has volume 6 and its low bounds open and close. -/
theorem claim_C5_bar_invariants_witness :
    (aggBucket "w" "btcusdt" ⟨0, 100, 1⟩ [⟨1, 101, 2⟩, ⟨2, 99, 3⟩]).volume = 6
    ∧ (aggBucket "w" "btcusdt" ⟨0, 100, 1⟩ [⟨1, 101, 2⟩, ⟨2, 99, 3⟩]).low
        ≤ min (aggBucket "w" "btcusdt" ⟨0, 100, 1⟩ [⟨1, 101, 2⟩, ⟨2, 99, 3⟩]).open_
          (aggBucket "w" "btcusdt" ⟨0, 100, 1⟩ [⟨1, 101, 2⟩, ⟨2, 99, 3⟩]).close := by
  have h := claim_C5_bar_invariants "w" "btcusdt" ⟨0, 100, 1⟩ [⟨1, 101, 2⟩, ⟨2, 99, 3⟩]
    (by simp [List.chain'_cons]) (by norm_num [List.forall_mem_cons])
  exact ⟨h.2.2.2.2.2.2.1.trans (by norm_num), h.1⟩

/-- Claim C3 (code-bug evidence): `zscore` has no error path at all; on
the constant series `[5, 5, 5]` the sample standard deviation is 0 and
the code silently returns the all-NaN series (every entry 0/0, modelled
`none`) instead of failing with a defined condition. -/
theorem claim_C3_zscore_constant_silent_nan :
    zscore [(5 : ℝ), 5, 5] = [none, none, none] ∧ stdR [(5 : ℝ), 5, 5] = 0 := by
  have hmean : meanR [(5 : ℝ), 5, 5] = 5 := by
    unfold meanR
    norm_num
  have hstd : stdR [(5 : ℝ), 5, 5] = 0 := by
    unfold stdR
    rw [hmean]
    norm_num
  exact ⟨by simp [zscore, hstd], hstd⟩

theorem corrOpt_self (x : List ℝ) (c : ℝ) (h : corrOpt x x = some c) : c = 1 := by
  unfold corrOpt at h
  by_cases hv : varP x = 0
  · rw [if_pos (Or.inl hv)] at h
    exact absurd h (by simp)
  · rw [if_neg (by tauto)] at h
    have hc : covP x x / (Real.sqrt (varP x) * Real.sqrt (varP x)) = c :=
      Option.some_injective _ h
    rw [Real.mul_self_sqrt (varP_nonneg x)] at hc
    rw [← hc]
    show varP x / varP x = 1
    exact div_self hv

/-- Claim C9: `rolling_corr(s, s, w)` carries no value at the first
`w − 1` positions (the rolling window is not yet full there), and at
every position where it is defined — every position whose window has
non-zero variance — the value is exactly 1. -/
theorem claim_C9_rolling_corr_self (s : List ℝ) (w i : Nat)
    (h : i < (rolling_corr s s w).length) :
    (i + 1 < w → (rolling_corr s s w).get ⟨i, h⟩ = none)
    ∧ (∀ c : ℝ, (rolling_corr s s w).get ⟨i, h⟩ = some c → c = 1) := by
  have hget : (rolling_corr s s w).get ⟨i, h⟩
      = if i + 1 < w then none else corrOpt (windowAt s i w) (windowAt s i w) := by
    unfold rolling_corr
    rw [List.get_eq_getElem]
    simp only [List.getElem_map, List.getElem_range]
  constructor
  · intro hw
    rw [hget, if_pos hw]
  · intro c hc
    rw [hget] at hc
    by_cases hw : i + 1 < w
    · rw [if_pos hw] at hc
      exact absurd hc (by simp)
    · rw [if_neg hw] at hc
      exact corrOpt_self _ c hc

/-- Claim C9 witness: on the series `[1, 2]` with window 2, position 0
is undefined and position 1 equals 1. -/
theorem claim_C9_rolling_corr_self_witness :
    (rolling_corr [(1 : ℝ), 2] [(1 : ℝ), 2] 2).get ⟨0, by simp [rolling_corr]⟩ = none
    ∧ (rolling_corr [(1 : ℝ), 2] [(1 : ℝ), 2] 2).get ⟨1, by simp [rolling_corr]⟩
      = some 1 := by
  constructor
  · exact (claim_C9_rolling_corr_self [(1 : ℝ), 2] 2 0 (by simp [rolling_corr])).1
      (by omega)
  · have hb : 1 < (rolling_corr [(1 : ℝ), 2] [(1 : ℝ), 2] 2).length := by
      simp [rolling_corr]
    have hval : (rolling_corr [(1 : ℝ), 2] [(1 : ℝ), 2] 2).get ⟨1, hb⟩
        = corrOpt [(1 : ℝ), 2] [(1 : ℝ), 2] := rfl
    have hvar : varP [(1 : ℝ), 2] ≠ 0 := by
      norm_num [varP, covP, meanR, zipWith_self, List.sum_cons]
    have hcorr : corrOpt [(1 : ℝ), 2] [(1 : ℝ), 2]
        = some (covP [(1 : ℝ), 2] [(1 : ℝ), 2]
            / (Real.sqrt (varP [(1 : ℝ), 2]) * Real.sqrt (varP [(1 : ℝ), 2]))) := by
      unfold corrOpt
      rw [if_neg (by simp [hvar])]
    have hsome := hval.trans hcorr
    have hone := (claim_C9_rolling_corr_self [(1 : ℝ), 2] 2 1 hb).2 _ hsome
    rw [hsome, hone]

end Gemscap
